import Mathlib

/-!
# Verification of the scATAC fragment tools coverage and split engines

A shallow embedding of `scatac_fragment_tools` (files
`library/bigwig/fragments_to_bigwig.py`, `library/split/split_fragments_by_cell_type.py`,
`cli/commands.py`) together with proofs about the embedded operations.

Machine integers are modelled as `Nat`/`Int`; the `uint32` depth counters wrap
modulo `2 ^ 32` exactly where the code increments them.  Floating-point values
(`f32`/`f64`) are modelled as exact rationals `ℚ`; the `float32` cast of a
`uint32` depth value is modelled as the exact numeric value (the cast is exact
for all values below `2 ^ 24`).  Fallible code returns `Except`/`Option`.
-/

/-- Modulus of the `uint32` depth counters used by `calculate_depth`. -/
def UINT32_MOD : Nat := 4294967296

/-- Effective index of a (possibly negative) Python/numpy slice bound `x` for an
array of length `size`: a negative bound wraps around to `size + x` (clamped at
`0`), a non-negative bound is clamped at `size`.  This is the semantics of
`chrom_depth[starts[i] : ends[i]]` in `calculate_depth`. -/
def sliceIdx (size : Nat) (x : Int) : Nat :=
  if x < 0 then (x + (size : Int)).toNat else min x.toNat size

/-- One numpy slice-increment `chrom_depth[lo:hi] += numba.uint32(1)`:
every entry whose absolute position (the position of the first entry of `ds`
is `b`) lies in `[lo, hi)` is incremented modulo `2 ^ 32`. -/
def bumpSlice (lo hi : Nat) : Nat → List Nat → List Nat
  | _, [] => []
  | b, d :: ds =>
    (if lo ≤ b ∧ b < hi then (d + 1) % UINT32_MOD else d) :: bumpSlice lo hi (b + 1) ds

/-- `calculate_depth` from `fragments_to_bigwig.py`: start from a zeroed
`uint32` array of length `chrom_size` and, for each fragment, increment the
slice `chrom_depth[starts[i] : ends[i]]` by one. -/
def calculate_depth (chrom_size : Nat) (starts ends : List Int) : List Nat :=
  (starts.zip ends).foldl
    (fun chrom_depth se =>
      bumpSlice (sliceIdx chrom_size se.1) (sliceIdx chrom_size se.2) 0 chrom_depth)
    (List.replicate chrom_size 0)

/-- The change-point loop of `collapse_consecutive_values`: walking the array
with the previous value `prev` in hand and `i` the index of the head of the
remaining list, record every index `i` whose value differs from the previous
one. -/
def cutsScan : Nat → Nat → List Nat → List Nat
  | _, _, [] => []
  | prev, i, x :: xs => if prev = x then cutsScan x (i + 1) xs else i :: cutsScan x (i + 1) xs

/-- All change points of `X` (the indices stored in `idx[1:]` by the loop of
`collapse_consecutive_values`): indices `i ∈ [1, n)` with `X[i-1] ≠ X[i]`. -/
def collapse_cuts : List Nat → List Nat
  | [] => []
  | x :: xs => cutsScan x 1 xs

/-- The `idx` array returned by `collapse_consecutive_values`
(`idx[0] = 0` followed by the recorded change points). -/
def collapse_idx (X : List Nat) : List Nat := 0 :: collapse_cuts X

/-- The `values` array of `collapse_consecutive_values`: `X[idx[:j]]`
(the `float32` cast is modelled as the exact value). -/
def collapse_values (X : List Nat) : List Nat :=
  (collapse_idx X).map (fun i => X.getD i 0)

/-- The `lengths` array of `collapse_consecutive_values`:
`idx[1 : j + 1] - idx[:j]`, where `idx[j] = n` is the final sentinel write. -/
def collapse_lengths (X : List Nat) : List Nat :=
  List.zipWith (fun p q => q - p) (collapse_idx X) ((collapse_idx X).tail ++ [X.length])

/-- `collapse_consecutive_values` from `fragments_to_bigwig.py`:
returns `(idx, values, lengths)`. -/
def collapse_consecutive_values (X : List Nat) : List Nat × List Nat × List Nat :=
  (collapse_idx X, collapse_values X, collapse_lengths X)

/-- The size of the `idx` buffer allocated by `collapse_consecutive_values`
(`np.empty(n + 1)`). -/
def collapse_idx_buffer_size (X : List Nat) : Nat := X.length + 1

/-- The index `j` at which the final sentinel write `idx[j] = n` happens:
`j` starts at `1` and is incremented once per recorded change point. -/
def collapse_final_write_index (X : List Nat) : Nat := 1 + (collapse_cuts X).length

/-- The per-chromosome runs computed by `fragments_to_coverage` before value
normalization: keep the entries of `(idx, values, lengths)` with a non-zero
value (`non_zero_idx = np.flatnonzero(values)`) and form
`(starts, ends, values) = (idx[nz], idx[nz] + lengths[nz], values[nz])`. -/
def coverage_triples (X : List Nat) : List (Nat × Nat × Nat) :=
  (((collapse_idx X).zip (collapse_values X)).zip (collapse_lengths X)).filterMap
    (fun p => if p.1.2 ≠ 0 then some (p.1.1, p.1.1 + p.2, p.1.2) else none)

/-- Length of the leading constant run of value `v` in a list. -/
def leadRun (v : Nat) : List Nat → Nat
  | [] => 0
  | y :: ys => if y = v then leadRun v ys + 1 else 0

/-- The maximal runs of constant value of a depth array, following the spec's
words: the next run starts where the previous one ended, each run is as long
as the value stays constant.  Each run is `(start, end, value)` with `end`
exclusive.  Stated from the spec for comparison with the code's
`coverage_triples`. -/
def maximalRuns (s : Nat) : List Nat → List (Nat × Nat × Nat)
  | [] => []
  | x :: xs =>
    (s, s + (leadRun x xs + 1), x) ::
      maximalRuns (s + (leadRun x xs + 1)) (xs.drop (leadRun x xs))
termination_by l => l.length
decreasing_by simp only [List.length_drop, List.length_cons]; omega

/-- Decode a boundary list into the array it describes: block `[a, b)` is
filled with `X[a]`.  Helper for relating `collapse_consecutive_values` to the
array it was computed from. -/
def decodeFrom (X : List Nat) : Nat → List Nat → List Nat
  | _, [] => []
  | a, b :: bs => List.replicate (b - a) (X.getD a 0) ++ decodeFrom X b bs

/-- Runs read off a boundary list: block `[a, b)` carries value `X[a]`.
Helper for relating `coverage_triples` to `maximalRuns`. -/
def triplesFrom (X : List Nat) : Nat → List Nat → List (Nat × Nat × Nat)
  | _, [] => []
  | a, b :: bs => (a, b, X.getD a 0) :: triplesFrom X b bs

/-- A fragment record as read into the polars data frame: columns
`Chromosome`, `Start`, `End`, `Name` (the cell barcode). -/
structure FragRow where
  Chromosome : String
  Start : Int
  End : Int
  Name : String
deriving DecidableEq

/-- The `n_fragments` counter of `fragments_to_coverage`: the number of input
rows whose chromosome appears in the chromosome-sizes dictionary (rows of
chromosomes missing from `chrom_sizes` are skipped and not counted). -/
def n_kept_fragments (fragments : List FragRow) (chrom_sizes : List (String × Nat)) : Nat :=
  (fragments.filter
    (fun f => (chrom_sizes.find? (fun cz => cz.1 == f.Chromosome)).isSome)).length

/-- `fragments_to_coverage` from `fragments_to_bigwig.py`, as the list of
per-chromosome yields.  For each chromosome of `chrom_sizes` (in order): take
the fragments of that chromosome, optionally replace them by their two 1-bp
cut sites (`np.hstack((starts, ends - 1))`, `np.hstack((starts + 1, ends))`),
accumulate depth, collapse to non-zero runs, and skip the chromosome when no
run remains; finally normalize/scale the run values
(`values / rpm_scaling_factor * scaling_factor` when `normalize`, else
`values * scaling_factor` when `scaling_factor ≠ 1`). -/
def fragments_to_coverage (fragments : List FragRow) (chrom_sizes : List (String × Nat))
    (normalize : Bool) (scaling_factor : ℚ) (cut_sites : Bool) :
    List (String × List (Nat × Nat × ℚ)) :=
  let rpm_scaling_factor : ℚ := (n_kept_fragments fragments chrom_sizes : ℚ) / 1000000
  chrom_sizes.filterMap (fun cz =>
    let chromFrags := fragments.filter (fun f => f.Chromosome == cz.1)
    let starts0 := chromFrags.map (fun f => f.Start)
    let ends0 := chromFrags.map (fun f => f.End)
    let starts := if cut_sites then starts0 ++ ends0.map (fun e => e - 1) else starts0
    let ends := if cut_sites then starts0.map (fun s => s + 1) ++ ends0 else ends0
    let triples := coverage_triples (calculate_depth cz.2 starts ends)
    if triples = [] then none
    else some (cz.1, triples.map (fun t =>
      (t.1, t.2.1,
        if normalize then (t.2.2 : ℚ) / rpm_scaling_factor * scaling_factor
        else if scaling_factor ≠ 1 then (t.2.2 : ℚ) * scaling_factor
        else (t.2.2 : ℚ)))))

/-- The doubling of a fragment list into 1-bp cut-site intervals, used to state
what `cut_sites = true` computes: each fragment `[s, e)` is replaced by the two
fragments `[s, s + 1)` and `[e - 1, e)`. -/
def cutSiteFragments (fragments : List FragRow) : List FragRow :=
  fragments.flatMap (fun f =>
    [⟨f.Chromosome, f.Start, f.Start + 1, f.Name⟩,
     ⟨f.Chromosome, f.End - 1, f.End, f.Name⟩])

/-- The two bigWig writer implementations `fragments_to_bw` can dispatch to. -/
inductive BigwigWriter where
  | pybigwig
  | pybigtools
deriving DecidableEq

/-- ASCII lower-casing of one character (`str.lower()` on the writer name). -/
def asciiLower (c : Char) : Char :=
  if 'A' ≤ c ∧ c ≤ 'Z' then Char.ofNat (c.toNat + 32) else c

/-- `bigwig_writer.lower()`. -/
def pyLower (s : String) : String := String.mk (s.toList.map asciiLower)

/-- `fragments_to_bw` from `fragments_to_bigwig.py`: dispatch on the writer
name.  The effect of a successful run (which writer implementation performs the
I/O and what it writes) is modelled as the returned pair; the unknown-writer
branch raises `ValueError` before anything is computed or opened, which the
model renders as `.error` with no payload. -/
def fragments_to_bw (fragments : List FragRow) (chrom_sizes : List (String × Nat))
    (normalize : Bool) (scaling_factor : ℚ) (cut_sites : Bool) (bigwig_writer : String) :
    Except String (BigwigWriter × List (String × List (Nat × Nat × ℚ))) :=
  if pyLower bigwig_writer = "pybigwig" then
    .ok (.pybigwig,
      fragments_to_coverage fragments chrom_sizes normalize scaling_factor cut_sites)
  else if pyLower bigwig_writer = "pybigtools" then
    .ok (.pybigtools,
      fragments_to_coverage fragments chrom_sizes normalize scaling_factor cut_sites)
  else
    .error ("Unsupported bigwig writer, value \"" ++ bigwig_writer ++
      "\" (allowed: [\"pybigwig\", \"pybigtools\"]).")

/-- The `Score` column of a fragments file as seen by
`read_fragments_to_polars_df`: either absent (fewer than 5 columns), read as
strings (which is what happens when the column holds `"."`), or read as
integers. -/
inductive ScoreColumn where
  | absent
  | utf8 (vals : List String)
  | ints (vals : List Int)

/-- Strict cast to `Int32` (`pl.col("Score").cast(pl.Int32())`, and the cast of
`pl.len()` to `Int32` on the grouping path): fails on values outside the
32-bit range, succeeds on everything else, negative and zero included. -/
def castI32 (x : Int) : Option Int :=
  if -2147483648 ≤ x ∧ x ≤ 2147483647 then some x else none

/-- Cast every count of a keyed list, failing if any single cast fails. -/
def castCounts : List (FragRow × Int) → Option (List (FragRow × Int))
  | [] => some []
  | (r, v) :: rest =>
    match castI32 v, castCounts rest with
    | some w, some ws => some ((r, w) :: ws)
    | _, _ => none

/-- The grouping path of `read_fragments_to_polars_df`:
`group_by(["Chromosome", "Start", "End", "Name"]).agg(pl.len())` — one output
record per distinct `(chrom, start, end, barcode)` key, whose count is the
number of input rows with that key.  (polars does not specify the group order;
the model lists groups by a canonical choice of representatives.) -/
def groupCounts (rows : List FragRow) : List (FragRow × Int) :=
  rows.dedup.map (fun r => (r, (rows.count r : Int)))

/-- `read_fragments_to_polars_df` from `fragments_to_bigwig.py`, modelled on
the already-parsed rows: when the `Score` column is absent or was read as
strings, collapse duplicate `(Chromosome, Start, End, Name)` keys counting the
rows of each group; otherwise cast the given scores to `Int32`. -/
def read_fragments_to_polars_df (rows : List FragRow) (score : ScoreColumn) :
    Except String (List (FragRow × Int)) :=
  match score with
  | .absent =>
    match castCounts (groupCounts rows) with
    | some out => .ok out
    | none => .error "polars cast to Int32 failed"
  | .utf8 _ =>
    match castCounts (groupCounts rows) with
    | some out => .ok out
    | none => .error "polars cast to Int32 failed"
  | .ints vals =>
    match castCounts (rows.zip vals) with
    | some out => .ok out
    | none => .error "polars cast to Int32 failed"

/-- Split a line into tab-separated fields (`line.split("\t")`). -/
def splitTabs : List Char → List (List Char)
  | [] => [[]]
  | c :: cs =>
    match splitTabs cs with
    | [] => if c = '\t' then [[], []] else [[c]]
    | h :: t => if c = '\t' then [] :: h :: t else (c :: h) :: t

/-- `int(chrom_size)`: an optional sign followed by at least one decimal
digit. -/
def parseDigits : List Char → Option Nat
  | [] => none
  | [c] => if c.isDigit then some (c.toNat - '0'.toNat) else none
  | c :: cs =>
    match parseDigits cs, (if c.isDigit then some (c.toNat - '0'.toNat) else none) with
    | some rest, some d => some (d * 10 ^ cs.length + rest)
    | _, _ => none

/-- `int(...)` on a field, allowing a leading minus sign. -/
def parseIntChars : List Char → Option Int
  | '-' :: cs => (parseDigits cs).map (fun n => -(n : Int))
  | cs => (parseDigits cs).map (fun n => (n : Int))

/-- Python-dict insertion `chrom_sizes[chrom] = size`: an existing key is
overwritten in place, a new key is appended. -/
def dictInsert (d : List (String × Int)) (c : String) (s : Int) : List (String × Int) :=
  if d.any (fun p => p.1 == c) then d.map (fun p => if p.1 == c then (c, s) else p)
  else d ++ [(c, s)]

/-- `get_chromosome_sizes` from `fragments_to_bigwig.py` (the bigwig path):
for each line (already stripped of its newline), skip it when blank or a `#`
comment, otherwise take the first two tab-separated fields and store
`chrom_sizes[chrom] = int(chrom_size)`; a line with fewer than two fields or a
non-integer size raises `ValueError`. -/
def get_chromosome_sizes (lines : List String) : Except String (List (String × Int)) :=
  lines.foldl
    (fun acc line =>
      acc.bind (fun chrom_sizes =>
        let cs := line.toList
        if cs = [] then .ok chrom_sizes
        else if cs.head? = some '#' then .ok chrom_sizes
        else
          match splitTabs cs with
          | chrom :: size_field :: _ =>
            (match parseIntChars size_field with
             | some n => .ok (dictInsert chrom_sizes (String.mk chrom) n)
             | none => .error "ValueError: invalid literal for int()")
          | _ => .error "ValueError: not enough values to unpack"))
    (.ok [])

/-- One step of the chromosome-sizes loop of
`command_split_fragments_by_cell_type` (`cli/commands.py`, the split path): a
chromosome seen before raises `ValueError`, otherwise it is added. -/
def split_chromsizes_step (acc : Except String (List (String × Int)))
    (row : String × Int) : Except String (List (String × Int)) :=
  acc.bind (fun chromsizes =>
    if chromsizes.any (fun p => p.1 == row.1) then
      .error ("Duplicates in chromosome sizes file, for chromosome " ++ row.1)
    else .ok (chromsizes ++ [row]))

/-- The chromosome-sizes loop of `command_split_fragments_by_cell_type`, over
the rows of the parsed two-column file. -/
def split_read_chromsizes (rows : List (String × Int)) :
    Except String (List (String × Int)) :=
  rows.foldl split_chromsizes_step (.ok [])

/-- A Python `Warning` object (`Warning(msg)` constructs one; it is an
exception value, and nothing happens unless it is raised). -/
structure PyWarning where
  message : String
deriving DecidableEq

/-- `_santize_string_for_filename` from `split_fragments_by_cell_type.py`:
replace `space` and `/` by `_`. -/
def santize_string_for_filename (s : String) : String :=
  String.mk (s.toList.map (fun c => if c = ' ' ∨ c = '/' then '_' else c))

/-- The merged output path `{output_folder}/{cell_type_sanitized}.fragments.tsv.gz`. -/
def merged_output_path (output_folder cell_type : String) : String :=
  output_folder ++ "/" ++ santize_string_for_filename cell_type ++ ".fragments.tsv.gz"

/-- The post-merge check of `split_fragment_files_by_cell_type` (lines
124-131): for every cell type whose merged output file is missing, the code
evaluates `Warning(f"...")` — constructing the exception value and immediately
discarding it — and then continues; it never raises and never returns an
error. -/
def check_merged_output_files (file_exists : String → Bool) (output_folder : String)
    (cell_types : List String) : Except String Unit :=
  cell_types.foldl
    (fun acc cell_type =>
      acc.bind (fun _ =>
        if file_exists (merged_output_path output_folder cell_type) then .ok ()
        else
          let _w := PyWarning.mk ("Fragment file " ++
            merged_output_path output_folder cell_type ++ " does not exist.")
          .ok ()))
    (.ok ())

/-- The `Warning` values the post-merge check constructs (and discards). -/
def merged_output_warnings (file_exists : String → Bool) (output_folder : String)
    (cell_types : List String) : List PyWarning :=
  cell_types.filterMap
    (fun cell_type =>
      if file_exists (merged_output_path output_folder cell_type) then none
      else some (PyWarning.mk ("Fragment file " ++
        merged_output_path output_folder cell_type ++ " does not exist.")))

/-! ## Basic facts about the change-point scan -/

theorem cutsScan_mem_lower : ∀ (xs : List Nat) (prev i c : Nat),
    c ∈ cutsScan prev i xs → i ≤ c := by
  intro xs
  induction xs with
  | nil => intro prev i c h; simp [cutsScan] at h
  | cons x xs ih =>
    intro prev i c h
    simp only [cutsScan] at h
    by_cases hpx : prev = x
    · simp only [if_pos hpx] at h
      have := ih x (i + 1) c h
      omega
    · simp only [if_neg hpx, List.mem_cons] at h
      rcases h with h | h
      · omega
      · have := ih x (i + 1) c h
        omega

theorem cutsScan_mem_upper : ∀ (xs : List Nat) (prev i c : Nat),
    c ∈ cutsScan prev i xs → c < i + xs.length := by
  intro xs
  induction xs with
  | nil => intro prev i c h; simp [cutsScan] at h
  | cons x xs ih =>
    intro prev i c h
    simp only [cutsScan] at h
    simp only [List.length_cons]
    by_cases hpx : prev = x
    · simp only [if_pos hpx] at h
      have := ih x (i + 1) c h
      omega
    · simp only [if_neg hpx, List.mem_cons] at h
      rcases h with h | h
      · omega
      · have := ih x (i + 1) c h
        omega

theorem cutsScan_chain : ∀ (xs : List Nat) (prev i : Nat),
    List.Chain' (· < ·) (cutsScan prev i xs) := by
  intro xs
  induction xs with
  | nil => intro prev i; simp [cutsScan]
  | cons x xs ih =>
    intro prev i
    simp only [cutsScan]
    by_cases hpx : prev = x
    · simp only [if_pos hpx]; exact ih x (i + 1)
    · simp only [if_neg hpx]
      refine List.Chain'.cons' (ih x (i + 1)) ?_
      intro y hy
      have : y ∈ cutsScan x (i + 1) xs := List.mem_of_mem_head? hy
      have := cutsScan_mem_lower xs x (i + 1) y this
      omega

theorem cutsScan_length_le : ∀ (xs : List Nat) (prev i : Nat),
    (cutsScan prev i xs).length ≤ xs.length := by
  intro xs
  induction xs with
  | nil => intro prev i; simp [cutsScan]
  | cons x xs ih =>
    intro prev i
    simp only [cutsScan, List.length_cons]
    by_cases hpx : prev = x
    · simp only [if_pos hpx]
      have := ih x (i + 1)
      omega
    · simp only [if_neg hpx, List.length_cons]
      have := ih x (i + 1)
      omega

/-- Reading the head of a `drop`: position, value and tail. -/
theorem drop_cons_facts (X : List Nat) (i x : Nat) (t : List Nat)
    (h : X.drop i = x :: t) :
    i < X.length ∧ X.getD i 0 = x ∧ X.drop (i + 1) = t := by
  have hlen : X.length - i = t.length + 1 := by
    have := congrArg List.length h
    simpa [List.length_drop] using this
  have hi : i < X.length := by omega
  have hd := List.drop_eq_getElem_cons hi
  rw [h] at hd
  injection hd with h1 h2
  refine ⟨hi, ?_, h2.symm⟩
  rw [List.getD_eq_getElem X 0 hi, h1]

/-- Decoding the boundary list produced by the change-point scan reproduces the
scanned suffix of the array. -/
theorem decodeFrom_cutsScan : ∀ (xs : List Nat) (prev i : Nat) (X : List Nat),
    1 ≤ i → i ≤ X.length → X.drop i = xs → X.getD (i - 1) 0 = prev →
    decodeFrom X (i - 1) (cutsScan prev i xs ++ [X.length]) = X.drop (i - 1) := by
  intro xs
  induction xs with
  | nil =>
    intro prev i X h1 h2 hdrop hprev
    have hin : X.length ≤ i := by
      by_contra hlt
      push_neg at hlt
      rw [List.drop_eq_getElem_cons hlt] at hdrop
      exact List.noConfusion hdrop
    have hi : i = X.length := le_antisymm h2 hin
    subst hi
    have hlt : X.length - 1 < X.length := by omega
    simp only [cutsScan, List.nil_append, decodeFrom]
    rw [List.drop_eq_getElem_cons hlt]
    have hdropnil : X.drop (X.length - 1 + 1) = [] := by
      apply List.drop_eq_nil_of_le
      omega
    rw [hdropnil]
    have hrep : X.length - (X.length - 1) = 1 := by omega
    rw [hrep]
    simp [List.replicate, List.getD_eq_getElem X 0 hlt, List.getElem?_eq_getElem hlt]
  | cons x xs ih =>
    intro prev i X h1 h2 hdrop hprev
    obtain ⟨hi, hgi, hdrop'⟩ := drop_cons_facts X i x xs hdrop
    have key : decodeFrom X i (cutsScan x (i + 1) xs ++ [X.length]) = X.drop i := by
      have := ih x (i + 1) X (by omega) (by omega) hdrop' (by simpa using hgi)
      simpa using this
    simp only [cutsScan]
    by_cases hpx : prev = x
    · simp only [if_pos hpx]
      -- the head boundary of the remaining list is at least `i + 1`
      obtain ⟨b, B, hB⟩ : ∃ b B, cutsScan x (i + 1) xs ++ [X.length] = b :: B := by
        cases hcs : cutsScan x (i + 1) xs with
        | nil => exact ⟨X.length, [], by simp [hcs]⟩
        | cons c cs => exact ⟨c, cs ++ [X.length], by simp [hcs]⟩
      have hbge : i + 1 ≤ b := by
        cases hcs : cutsScan x (i + 1) xs with
        | nil =>
          rw [hcs] at hB
          simp at hB
          omega
        | cons c cs =>
          rw [hcs] at hB
          simp at hB
          have : c ∈ cutsScan x (i + 1) xs := by rw [hcs]; exact List.mem_cons_self c cs
          have := cutsScan_mem_lower xs x (i + 1) c this
          omega
      rw [hB]
      rw [hB] at key
      simp only [decodeFrom] at key ⊢
      have hval : X.getD (i - 1) 0 = X.getD i 0 := by rw [hprev, hpx, hgi]
      have hrep : b - (i - 1) = (b - i) + 1 := by omega
      rw [hrep, hval, List.replicate_succ, List.cons_append, key]
      rw [List.drop_eq_getElem_cons (show i - 1 < X.length by omega)]
      have : i - 1 + 1 = i := by omega
      rw [this]
      congr 1
      rw [← hval, List.getD_eq_getElem X 0 (show i - 1 < X.length by omega)]
    · simp only [if_neg hpx, List.cons_append, decodeFrom]
      rw [key]
      have hrep : i - (i - 1) = 1 := by omega
      rw [hrep]
      rw [List.drop_eq_getElem_cons (show i - 1 < X.length by omega)]
      have : i - 1 + 1 = i := by omega
      rw [this]
      simp [List.replicate, List.getD_eq_getElem X 0 (show i - 1 < X.length by omega),
        List.getElem?_eq_getElem (show i - 1 < X.length by omega)]

/-- `values.repeat(lengths)` written over a boundary list equals `decodeFrom`. -/
theorem zipWith_replicate_decode : ∀ (cs : List Nat) (a n : Nat) (X : List Nat),
    (List.zipWith (fun v l => List.replicate l v)
      ((a :: cs).map (fun i => X.getD i 0))
      (List.zipWith (fun p q => q - p) (a :: cs) (cs ++ [n]))).flatten =
    decodeFrom X a (cs ++ [n]) := by
  intro cs
  induction cs with
  | nil =>
    intro a n X
    simp [decodeFrom]
  | cons c cs ih =>
    intro a n X
    simp only [List.map_cons, List.cons_append, List.zipWith_cons_cons, List.flatten_cons,
      decodeFrom]
    congr 1
    exact ih c n X

/-- Differences of a strictly increasing boundary list are positive. -/
theorem zipWith_sub_pos : ∀ (l : List Nat) (b : Nat), List.Chain' (· < ·) l →
    (∀ y ∈ l, y < b) →
    ∀ y ∈ List.zipWith (fun p q => q - p) l (l.tail ++ [b]), 0 < y := by
  intro l
  induction l with
  | nil => intro b _ _ y hy; simp at hy
  | cons a l ih =>
    intro b hchain hlt y hy
    cases l with
    | nil =>
      simp only [List.tail_cons, List.nil_append, List.zipWith_cons_cons,
        List.zipWith_nil_right, List.mem_singleton] at hy
      have : a < b := hlt a (by simp)
      omega
    | cons c l' =>
      simp only [List.tail_cons, List.cons_append, List.zipWith_cons_cons,
        List.mem_cons] at hy
      rcases hy with hy | hy
      · have : a < c := (List.chain'_cons.mp hchain).1
        omega
      · exact ih b (List.chain'_cons.mp hchain).2
          (fun z hz => hlt z (List.mem_cons_of_mem a hz)) y (by simpa using hy)

/-- The `idx` array is strictly increasing, and its entries stay below the
array length. -/
theorem collapse_idx_chain (X : List Nat) (h : X ≠ []) :
    List.Chain' (· < ·) (collapse_idx X) ∧ ∀ y ∈ collapse_idx X, y < X.length := by
  cases X with
  | nil => exact absurd rfl h
  | cons x xs =>
    constructor
    · refine List.Chain'.cons' (cutsScan_chain xs x 1) ?_
      intro y hy
      have : y ∈ cutsScan x 1 xs := List.mem_of_mem_head? hy
      have := cutsScan_mem_lower xs x 1 y this
      omega
    · intro y hy
      simp only [collapse_idx, collapse_cuts, List.mem_cons] at hy
      rcases hy with hy | hy
      · simp [hy]
      · have := cutsScan_mem_upper xs x 1 y hy
        simp only [List.length_cons]
        omega

/-- C1.  For every non-empty depth array `X`, `collapse_consecutive_values X`
returns `(idx, values, lengths)` such that repeating each value by its run
length reconstructs the input exactly (`values.repeat(lengths) == X`),
`idx[0] = 0`, `idx` is strictly increasing and all lengths are positive. -/
theorem collapse_consecutive_values_spec (X : List Nat) (h : X ≠ []) :
    (List.zipWith (fun v l => List.replicate l v)
        (collapse_consecutive_values X).2.1 (collapse_consecutive_values X).2.2).flatten = X ∧
    (collapse_consecutive_values X).1.head? = some 0 ∧
    List.Chain' (· < ·) (collapse_consecutive_values X).1 ∧
    ∀ l ∈ (collapse_consecutive_values X).2.2, 0 < l := by
  obtain ⟨hchain, hbound⟩ := collapse_idx_chain X h
  refine ⟨?_, rfl, hchain, ?_⟩
  · show (List.zipWith (fun v l => List.replicate l v)
        (collapse_values X) (collapse_lengths X)).flatten = X
    have hconv := zipWith_replicate_decode (collapse_cuts X) 0 X.length X
    have : collapse_values X = (0 :: collapse_cuts X).map (fun i => X.getD i 0) := rfl
    rw [show collapse_values X = ((0 : Nat) :: collapse_cuts X).map
        (fun i => X.getD i 0) from rfl,
      show collapse_lengths X = List.zipWith (fun p q => q - p)
        ((0 : Nat) :: collapse_cuts X) (collapse_cuts X ++ [X.length]) from rfl]
    rw [hconv]
    cases X with
    | nil => exact absurd rfl h
    | cons x xs =>
      have := decodeFrom_cutsScan xs x 1 (x :: xs) (by omega) (by simp) (by simp) (by simp)
      simpa [collapse_cuts] using this
  · show ∀ l ∈ collapse_lengths X, 0 < l
    intro l hl
    refine zipWith_sub_pos (collapse_idx X) X.length hchain hbound l ?_
    simpa [collapse_lengths] using hl

/-- Witness for `collapse_consecutive_values_spec` at `X = [5, 5, 7]`. -/
theorem collapse_consecutive_values_spec_witness :
    ([5, 5, 7] : List Nat) ≠ [] ∧
    ((List.zipWith (fun v l => List.replicate l v)
        (collapse_consecutive_values [5, 5, 7]).2.1
        (collapse_consecutive_values [5, 5, 7]).2.2).flatten = [5, 5, 7] ∧
      (collapse_consecutive_values [5, 5, 7]).1.head? = some 0 ∧
      List.Chain' (· < ·) (collapse_consecutive_values [5, 5, 7]).1 ∧
      ∀ l ∈ (collapse_consecutive_values [5, 5, 7]).2.2, 0 < l) :=
  ⟨by decide, collapse_consecutive_values_spec [5, 5, 7] (by decide)⟩

/-- C9.  For every non-empty input `X` of length `n`, the change-point counter
records at most `n - 1` indices, so the final sentinel write `idx[j] = n`
happens at an index `j ≤ n`, inside the `(n + 1)`-element `idx` buffer; for the
empty input the final write targets index `1` of a `1`-element buffer and is
out of bounds. -/
theorem collapse_idx_writes_in_bounds :
    (∀ X : List Nat, X ≠ [] →
      (collapse_cuts X).length ≤ X.length - 1 ∧
      collapse_final_write_index X ≤ X.length ∧
      collapse_final_write_index X < collapse_idx_buffer_size X) ∧
    (collapse_final_write_index ([] : List Nat) = 1 ∧
      ¬ collapse_final_write_index ([] : List Nat) <
          collapse_idx_buffer_size ([] : List Nat)) := by
  constructor
  · intro X h
    cases X with
    | nil => exact absurd rfl h
    | cons x xs =>
      have := cutsScan_length_le xs x 1
      simp only [collapse_cuts, collapse_final_write_index, collapse_idx_buffer_size,
        List.length_cons]
      omega
  · exact ⟨rfl, by decide⟩

/-- Witness for `collapse_idx_writes_in_bounds` at `X = [5, 7]`. -/
theorem collapse_idx_writes_in_bounds_witness :
    ([5, 7] : List Nat) ≠ [] ∧
    ((collapse_cuts [5, 7]).length ≤ ([5, 7] : List Nat).length - 1 ∧
      collapse_final_write_index [5, 7] ≤ ([5, 7] : List Nat).length ∧
      collapse_final_write_index [5, 7] < collapse_idx_buffer_size [5, 7]) :=
  ⟨by decide, collapse_idx_writes_in_bounds.1 [5, 7] (by decide)⟩

/-! ## The collapsed runs are the maximal constant runs -/

/-- `getD` through `drop`. -/
theorem getD_drop : ∀ (l : List Nat) (m k : Nat), (l.drop m).getD k 0 = l.getD (m + k) 0 := by
  intro l
  induction l with
  | nil => intro m k; simp
  | cons x t ih =>
    intro m k
    cases m with
    | zero => simp
    | succ m' =>
      simp only [List.drop_succ_cons]
      rw [ih m' k]
      have : m' + 1 + k = (m' + k) + 1 := by omega
      rw [this]
      rfl

/-- A list all of whose positions hold `v` has a leading `v`-run of full
length. -/
theorem leadRun_of_const : ∀ (L : List Nat) (v : Nat),
    (∀ k < L.length, L.getD k 0 = v) → leadRun v L = L.length := by
  intro L
  induction L with
  | nil => intro v _; rfl
  | cons y ys ih =>
    intro v hconst
    have hy : y = v := by
      have := hconst 0 (by simp)
      simpa using this
    simp only [leadRun, if_pos hy, List.length_cons]
    rw [ih v]
    intro k hk
    have := hconst (k + 1) (by simp; omega)
    simpa using this

/-- A list constant equal to `v` up to position `m` and different at `m` has a
leading `v`-run of length exactly `m`. -/
theorem leadRun_eq_of_change : ∀ (L : List Nat) (v m : Nat), m < L.length →
    (∀ k < m, L.getD k 0 = v) → L.getD m 0 ≠ v → leadRun v L = m := by
  intro L
  induction L with
  | nil => intro v m hm; simp at hm
  | cons y ys ih =>
    intro v m hm hconst hchange
    cases m with
    | zero =>
      have hy : y ≠ v := by simpa using hchange
      simp [leadRun, hy]
    | succ m' =>
      have hy : y = v := by
        have := hconst 0 (by omega)
        simpa using this
      simp only [leadRun, if_pos hy]
      rw [ih v m' (by simp at hm; omega)]
      · intro k hk
        have := hconst (k + 1) (by omega)
        simpa using this
      · simpa using hchange

/-- The boundary list of the change-point scan, read as runs, is exactly the
list of maximal constant runs of the scanned array. -/
theorem triplesFrom_cutsScan : ∀ (xs : List Nat) (a prev i : Nat) (X : List Nat),
    a < i → i ≤ X.length → X.drop i = xs →
    (∀ k, a ≤ k → k < i → X.getD k 0 = prev) →
    triplesFrom X a (cutsScan prev i xs ++ [X.length]) = maximalRuns a (X.drop a) := by
  intro xs
  induction xs with
  | nil =>
    intro a prev i X hai hin hdrop hconst
    have hin' : X.length ≤ i := by
      by_contra hlt
      push_neg at hlt
      rw [List.drop_eq_getElem_cons hlt] at hdrop
      exact List.noConfusion hdrop
    have hi : i = X.length := le_antisymm hin hin'
    subst hi
    have ha : a < X.length := hai
    rw [List.drop_eq_getElem_cons ha]
    have hgetDa : X.getD a 0 = X[a] := List.getD_eq_getElem X 0 ha
    have hlead : leadRun X[a] (X.drop (a + 1)) = (X.drop (a + 1)).length := by
      apply leadRun_of_const
      intro k hk
      rw [getD_drop]
      simp only [List.length_drop] at hk
      rw [hconst (a + 1 + k) (by omega) (by omega), ← hconst a (le_refl a) ha, hgetDa]
    simp only [cutsScan, List.nil_append, triplesFrom, maximalRuns, hlead,
      List.length_drop]
    have h1 : a + (X.length - (a + 1) + 1) = X.length := by omega
    have h2 : (X.drop (a + 1)).drop (X.length - (a + 1)) = [] := by
      apply List.drop_eq_nil_of_le
      simp [List.length_drop]
    rw [h1, h2]
    simp only [maximalRuns, hgetDa]
  | cons x xs ih =>
    intro a prev i X hai hin hdrop hconst
    obtain ⟨hi, hgi, hdrop'⟩ := drop_cons_facts X i x xs hdrop
    simp only [cutsScan]
    by_cases hpx : prev = x
    · simp only [if_pos hpx]
      exact ih a x (i + 1) X (by omega) (by omega) hdrop'
        (fun k hk1 hk2 => by
          rcases Nat.lt_or_ge k i with hk | hk
          · rw [hconst k hk1 hk, hpx]
          · have : k = i := by omega
            rw [this, hgi])
    · simp only [if_neg hpx, List.cons_append, triplesFrom]
      have hrec := ih i x (i + 1) X (by omega) (by omega) hdrop'
        (fun k hk1 hk2 => by
          have : k = i := by omega
          rw [this, hgi])
      rw [hrec]
      have ha : a < X.length := by omega
      rw [List.drop_eq_getElem_cons ha]
      have hgetDa : X.getD a 0 = X[a] := List.getD_eq_getElem X 0 ha
      have hlead : leadRun X[a] (X.drop (a + 1)) = i - (a + 1) := by
        apply leadRun_eq_of_change
        · simp only [List.length_drop]
          omega
        · intro k hk
          rw [getD_drop]
          rw [hconst (a + 1 + k) (by omega) (by omega), ← hconst a (le_refl a) hai, hgetDa]
        · rw [getD_drop]
          have : a + 1 + (i - (a + 1)) = i := by omega
          rw [this, hgi]
          rw [← hgetDa, hconst a (le_refl a) hai]
          exact fun hc => hpx hc.symm
      simp only [maximalRuns, hlead]
      have h1 : a + (i - (a + 1) + 1) = i := by omega
      have h2 : (X.drop (a + 1)).drop (i - (a + 1)) = X.drop i := by
        rw [List.drop_drop]
        congr 1
        omega
      rw [h1, h2, hgetDa]

/-- The `filterMap` of `coverage_triples` is a `filter` after building the
triples. -/
theorem filterMap_if_eq (l : List ((Nat × Nat) × Nat)) :
    l.filterMap (fun p => if p.1.2 ≠ 0 then some (p.1.1, p.1.1 + p.2, p.1.2) else none) =
    (l.map (fun p => (p.1.1, p.1.1 + p.2, p.1.2))).filter (fun t => t.2.2 ≠ 0) := by
  induction l with
  | nil => rfl
  | cons p l ih =>
    simp only [ne_eq, ite_not, decide_not] at ih ⊢
    by_cases h : p.1.2 = 0
    · simp [List.filterMap_cons, List.filter_cons, h, ih]
    · simp [List.filterMap_cons, List.filter_cons, h, ih]

/-- The zipped `(idx, values, lengths)` triples over a monotone boundary list
are `triplesFrom`. -/
theorem zipped_map_eq_triplesFrom : ∀ (cs : List Nat) (a n : Nat) (X : List Nat),
    List.Chain' (· ≤ ·) (a :: (cs ++ [n])) →
    (((a :: cs).zip ((a :: cs).map (fun i => X.getD i 0))).zip
        (List.zipWith (fun p q => q - p) (a :: cs) (cs ++ [n]))).map
      (fun p => (p.1.1, p.1.1 + p.2, p.1.2)) =
    triplesFrom X a (cs ++ [n]) := by
  intro cs
  induction cs with
  | nil =>
    intro a n X hchain
    have han : a ≤ n := by
      have := (List.chain'_cons.mp hchain).1
      simpa using this
    simp only [List.map_cons, List.map_nil, List.nil_append, List.zip_cons_cons,
      List.zip_nil_right, List.zipWith_cons_cons, List.zipWith_nil_right, triplesFrom]
    have : a + (n - a) = n := by omega
    simp [this]
  | cons c cs ih =>
    intro a n X hchain
    have hac : a ≤ c := by
      have := (List.chain'_cons.mp hchain).1
      simpa using this
    simp only [List.map_cons, List.cons_append, List.zip_cons_cons,
      List.zipWith_cons_cons, triplesFrom]
    have hc : a + (c - a) = c := by omega
    rw [hc]
    congr 1
    have := ih c n X (List.chain'_cons.mp hchain).2
    simpa using this

/-- The non-zero runs computed by the code from a depth array are exactly the
maximal constant runs of that array, restricted to non-zero values. -/
theorem coverage_triples_eq_maximalRuns (X : List Nat) :
    coverage_triples X = (maximalRuns 0 X).filter (fun t => t.2.2 ≠ 0) := by
  cases hX : X with
  | nil =>
    simp [coverage_triples, collapse_idx, collapse_values, collapse_lengths,
      collapse_cuts, maximalRuns]
  | cons x xs =>
    rw [← hX]
    have hne : X ≠ [] := by rw [hX]; exact List.noConfusion
    obtain ⟨hchain, hbound⟩ := collapse_idx_chain X hne
    have hchainle : List.Chain' (· ≤ ·) ((0 : Nat) :: (collapse_cuts X ++ [X.length])) := by
      have happ : List.Chain' (· < ·) (collapse_idx X ++ [X.length]) := by
        rw [List.chain'_append]
        refine ⟨hchain, List.chain'_singleton _, ?_⟩
        intro y hy z hz
        have hy' : y ∈ collapse_idx X := by
          obtain ⟨hne', hxy⟩ := List.mem_getLast?_eq_getLast hy
          rw [hxy]
          exact List.getLast_mem hne'
        have hz' : X.length = z := by simpa using hz
        rw [← hz']
        exact hbound y hy'
      have : List.Chain' (· < ·) ((0 : Nat) :: (collapse_cuts X ++ [X.length])) := by
        simpa [collapse_idx] using happ
      exact this.imp (fun a b => le_of_lt)
    have hz := zipped_map_eq_triplesFrom (collapse_cuts X) 0 X.length X hchainle
    have htf : triplesFrom X 0 (cutsScan x 1 xs ++ [X.length]) = maximalRuns 0 X := by
      have := triplesFrom_cutsScan xs 0 x 1 X (by omega) (by rw [hX]; simp)
        (by rw [hX]; simp)
        (fun k hk1 hk2 => by
          have : k = 0 := by omega
          rw [this, hX]
          rfl)
      simpa using this
    calc coverage_triples X
        = (((collapse_idx X).zip (collapse_values X)).zip (collapse_lengths X)).filterMap
            (fun p => if p.1.2 ≠ 0 then some (p.1.1, p.1.1 + p.2, p.1.2) else none) := rfl
      _ = ((((collapse_idx X).zip (collapse_values X)).zip (collapse_lengths X)).map
            (fun p => (p.1.1, p.1.1 + p.2, p.1.2))).filter (fun t => t.2.2 ≠ 0) :=
          filterMap_if_eq _
      _ = (triplesFrom X 0 (collapse_cuts X ++ [X.length])).filter (fun t => t.2.2 ≠ 0) := by
          rw [← hz]
          rfl
      _ = (maximalRuns 0 X).filter (fun t => t.2.2 ≠ 0) := by
          rw [← htf]
          congr 1
          rw [hX]
          rfl

/-! ## Depth accumulator -/

theorem bumpSlice_length : ∀ (ds : List Nat) (lo hi b : Nat),
    (bumpSlice lo hi b ds).length = ds.length := by
  intro ds
  induction ds with
  | nil => intro lo hi b; rfl
  | cons d ds ih =>
    intro lo hi b
    simp only [bumpSlice, List.length_cons, ih]

theorem bumpSlice_getD : ∀ (ds : List Nat) (lo hi b k : Nat), k < ds.length →
    (bumpSlice lo hi b ds).getD k 0 =
      if lo ≤ b + k ∧ b + k < hi then (ds.getD k 0 + 1) % UINT32_MOD else ds.getD k 0 := by
  intro ds
  induction ds with
  | nil => intro lo hi b k hk; simp at hk
  | cons d ds ih =>
    intro lo hi b k hk
    cases k with
    | zero => simp [bumpSlice]
    | succ k' =>
      simp only [bumpSlice, List.getD_cons_succ]
      rw [ih lo hi (b + 1) k' (by simp at hk; omega)]
      have : b + 1 + k' = b + (k' + 1) := by omega
      rw [this]

/-- The slice-increment fold of `calculate_depth` preserves the array length. -/
theorem depth_foldl_length : ∀ (pairs : List (Int × Int)) (size : Nat) (d : List Nat),
    (pairs.foldl
      (fun chrom_depth se =>
        bumpSlice (sliceIdx size se.1) (sliceIdx size se.2) 0 chrom_depth) d).length =
    d.length := by
  intro pairs
  induction pairs with
  | nil => intro size d; rfl
  | cons p ps ih =>
    intro size d
    simp only [List.foldl_cons]
    rw [ih size _, bumpSlice_length]

/-- Pointwise description of the slice-increment fold: each position
accumulates one count per fragment whose effective slice covers it, modulo
`2 ^ 32`. -/
theorem depth_foldl_getD : ∀ (pairs : List (Int × Int)) (size : Nat) (d : List Nat)
    (b : Nat), b < d.length → d.getD b 0 < UINT32_MOD →
    (pairs.foldl
      (fun chrom_depth se =>
        bumpSlice (sliceIdx size se.1) (sliceIdx size se.2) 0 chrom_depth) d).getD b 0 =
    (d.getD b 0 +
      pairs.countP (fun se => decide (sliceIdx size se.1 ≤ b ∧ b < sliceIdx size se.2)))
      % UINT32_MOD := by
  intro pairs
  induction pairs with
  | nil =>
    intro size d b hb hlt
    simp only [List.foldl_nil, List.countP_nil, Nat.add_zero]
    exact (Nat.mod_eq_of_lt hlt).symm
  | cons p ps ih =>
    intro size d b hb hlt
    simp only [List.foldl_cons, List.countP_cons]
    have hb' : b < (bumpSlice (sliceIdx size p.1) (sliceIdx size p.2) 0 d).length := by
      rw [bumpSlice_length]; exact hb
    have hstep := bumpSlice_getD d (sliceIdx size p.1) (sliceIdx size p.2) 0 b hb
    simp only [Nat.zero_add] at hstep
    by_cases hc : sliceIdx size p.1 ≤ b ∧ b < sliceIdx size p.2
    · have hlt' : (bumpSlice (sliceIdx size p.1) (sliceIdx size p.2) 0 d).getD b 0 <
          UINT32_MOD := by
        rw [hstep, if_pos hc]
        exact Nat.mod_lt _ (by simp [UINT32_MOD])
      rw [ih size _ b hb' hlt', hstep, if_pos hc, if_pos (decide_eq_true hc),
        Nat.mod_add_mod]
      congr 1
      omega
    · have hlt' : (bumpSlice (sliceIdx size p.1) (sliceIdx size p.2) 0 d).getD b 0 <
          UINT32_MOD := by
        rw [hstep, if_neg hc]
        exact hlt
      rw [ih size _ b hb' hlt', hstep, if_neg hc]
      have : decide (sliceIdx size p.1 ≤ b ∧ b < sliceIdx size p.2) = false := by
        simpa using hc
      rw [this]
      simp

theorem getD_replicate_zero (size b : Nat) : (List.replicate size (0 : Nat)).getD b 0 = 0 := by
  rcases Nat.lt_or_ge b size with hb | hb
  · rw [List.getD_eq_getElem _ _ (by simpa using hb), List.getElem_replicate]
  · rw [List.getD_eq_default]
    simpa using hb

theorem calculate_depth_length (size : Nat) (starts ends : List Int) :
    (calculate_depth size starts ends).length = size := by
  rw [calculate_depth, depth_foldl_length, List.length_replicate]

/-- `calculate_depth` computes, at every base `b < size`, the number of
fragments whose effective numpy slice `[sliceIdx s, sliceIdx e)` covers `b`,
modulo `2 ^ 32`. -/
theorem calculate_depth_getD (size : Nat) (starts ends : List Int) (b : Nat)
    (hb : b < size) :
    (calculate_depth size starts ends).getD b 0 =
      ((starts.zip ends).countP
        (fun se => decide (sliceIdx size se.1 ≤ b ∧ b < sliceIdx size se.2))) % UINT32_MOD := by
  rw [calculate_depth, depth_foldl_getD (starts.zip ends) size _ b
    (by simpa using hb) (by rw [getD_replicate_zero]; simp [UINT32_MOD]),
    getD_replicate_zero, Nat.zero_add]

/-- `calculate_depth` as a map over base positions, when fewer than `2 ^ 32`
fragments are given. -/
theorem calculate_depth_eq_map (size : Nat) (starts ends : List Int)
    (hcnt : starts.length < UINT32_MOD) :
    calculate_depth size starts ends =
      (List.range size).map (fun b =>
        (starts.zip ends).countP
          (fun se => decide (sliceIdx size se.1 ≤ b ∧ b < sliceIdx size se.2))) := by
  apply List.ext_getElem
  · rw [calculate_depth_length, List.length_map, List.length_range]
  · intro i h1 h2
    rw [List.getElem_map, List.getElem_range]
    rw [calculate_depth_length] at h1
    rw [← List.getD_eq_getElem _ 0, calculate_depth_getD size starts ends i h1]
    apply Nat.mod_eq_of_lt
    calc ((starts.zip ends).countP _) ≤ (starts.zip ends).length := List.countP_le_length _
      _ ≤ starts.length := by rw [List.length_zip]; omega
      _ < UINT32_MOD := hcnt

/-- For non-negative slice bounds the effective slice covers exactly the bases
`b < size` with `s ≤ b < e`. -/
theorem sliceIdx_cond_iff (size : Nat) (s e : Int) (b : Nat) (hb : b < size)
    (hs : 0 ≤ s) (he : 0 ≤ e) :
    (sliceIdx size s ≤ b ∧ b < sliceIdx size e) ↔ (s ≤ (b : Int) ∧ (b : Int) < e) := by
  simp only [sliceIdx, if_neg (by omega : ¬s < 0), if_neg (by omega : ¬e < 0)]
  rw [Nat.min_def, Nat.min_def]
  split_ifs <;> omega

/-! ## C5: slice clipping and negative starts -/

/-- C5 (counterexample).  A fragment with start `s = -2` is NOT rejected by
`calculate_depth`: the numpy slice semantics wrap the negative start around to
`size + s`, so the fragment is silently counted over the last two bases of the
chromosome. -/
theorem calculate_depth_negative_start_not_rejected :
    calculate_depth 10 [-2] [10] = [0, 0, 0, 0, 0, 0, 0, 0, 1, 1] := by decide

/-- C5 (amended).  In the depth accumulator, the effective slice of each
fragment is the numpy slice: an end `e ≥ chrom_size` is clipped to
`chrom_size` (bases up to `chrom_size` are still counted), while a start
`s < 0` is not rejected — it wraps around to `(s + chrom_size)` (clamped at
`0`) and the fragment is counted there. -/
theorem calculate_depth_slice_semantics (size : Nat) (starts ends : List Int) (b : Nat)
    (hb : b < size) (hlen : starts.length = ends.length) :
    (calculate_depth size starts ends).getD b 0 =
      ((starts.zip ends).countP
        (fun se => decide (sliceIdx size se.1 ≤ b ∧ b < sliceIdx size se.2)))
        % UINT32_MOD ∧
    (∀ e : Int, (size : Int) ≤ e → sliceIdx size e = size) ∧
    (∀ s : Int, s < 0 → sliceIdx size s = (s + (size : Int)).toNat) := by
  refine ⟨calculate_depth_getD size starts ends b hb, ?_, ?_⟩
  · intro e he
    have hneg : ¬ e < 0 := by omega
    simp only [sliceIdx, if_neg hneg]
    rw [Nat.min_def]
    split_ifs <;> omega
  · intro s hs
    simp [sliceIdx, hs]

/-- Witness for `calculate_depth_slice_semantics` at
`size = 10`, `starts = [-2]`, `ends = [12]`, `b = 9`. -/
theorem calculate_depth_slice_semantics_witness :
    (9 < 10 ∧ ([(-2 : Int)] : List Int).length = ([(12 : Int)] : List Int).length) ∧
    ((calculate_depth 10 [-2] [12]).getD 9 0 =
      ((([(-2 : Int)] : List Int).zip ([(12 : Int)] : List Int)).countP
        (fun se => decide (sliceIdx 10 se.1 ≤ 9 ∧ 9 < sliceIdx 10 se.2)))
        % UINT32_MOD ∧
      (∀ e : Int, ((10 : Nat) : Int) ≤ e → sliceIdx 10 e = 10) ∧
      (∀ s : Int, s < 0 → sliceIdx 10 s = (s + ((10 : Nat) : Int)).toNat)) :=
  ⟨⟨by decide, by decide⟩,
    calculate_depth_slice_semantics 10 [-2] [12] 9 (by decide) (by decide)⟩

/-! ## C6: count column handling -/

theorem castCounts_of_in_range : ∀ (l : List (FragRow × Int)),
    (∀ p ∈ l, -2147483648 ≤ p.2 ∧ p.2 ≤ 2147483647) → castCounts l = some l := by
  intro l
  induction l with
  | nil => intro _; rfl
  | cons p l ih =>
    intro h
    have hp := h p (by simp)
    have hl := ih (fun q hq => h q (List.mem_cons_of_mem p hq))
    simp only [castCounts]
    rw [show castI32 p.2 = some p.2 from by simp [castI32, hp.1, hp.2], hl]

/-- C6 (counterexample).  A record whose count column holds the negative value
`-5` does NOT make the read fail: `read_fragments_to_polars_df` simply casts it
to `Int32` and returns it. -/
theorem read_fragments_negative_count_not_rejected :
    read_fragments_to_polars_df [⟨"chr1", 0, 10, "BC1"⟩] (.ints [-5]) =
      .ok [(⟨"chr1", 0, 10, "BC1"⟩, -5)] := by rfl

/-- C6 (amended).  When the count column is present and numeric, every count is
cast to 32-bit range — the cast fails only outside that range, while negative
and zero counts are accepted unchanged; when the column is absent or was read
as strings (the `"."` case), records collapse by
`(Chromosome, Start, End, Name)` into one record per distinct key whose count
is the number of collapsed duplicates. -/
theorem read_fragments_count_spec :
    (∀ (rows : List FragRow) (vals : List Int),
      (∀ v ∈ vals, -2147483648 ≤ v ∧ v ≤ 2147483647) →
      read_fragments_to_polars_df rows (.ints vals) = .ok (rows.zip vals)) ∧
    (∀ (rows : List FragRow) (svals : List String),
      rows.length ≤ 2147483647 →
      read_fragments_to_polars_df rows (.utf8 svals) = .ok (groupCounts rows) ∧
      read_fragments_to_polars_df rows .absent = .ok (groupCounts rows) ∧
      (∀ (r : FragRow) (c : Int),
        (r, c) ∈ groupCounts rows ↔ r ∈ rows ∧ c = (rows.count r : Int)) ∧
      ((groupCounts rows).map Prod.fst).Nodup) := by
  constructor
  · intro rows vals hv
    have : castCounts (rows.zip vals) = some (rows.zip vals) := by
      apply castCounts_of_in_range
      intro p hp
      exact hv p.2 (List.of_mem_zip hp).2
    simp [read_fragments_to_polars_df, this]
  · intro rows svals hlen
    have hcast : castCounts (groupCounts rows) = some (groupCounts rows) := by
      apply castCounts_of_in_range
      intro p hp
      obtain ⟨r, hr, hpr⟩ := List.mem_map.mp hp
      rw [← hpr]
      have hc : rows.count r ≤ rows.length := List.count_le_length r rows
      constructor
      · simp
        omega
      · simp
        omega
    refine ⟨by simp [read_fragments_to_polars_df, hcast],
      by simp [read_fragments_to_polars_df, hcast], ?_, ?_⟩
    · intro r c
      constructor
      · intro h
        obtain ⟨r', hr', hpr⟩ := List.mem_map.mp h
        injection hpr with h1 h2
        subst h1
        exact ⟨List.mem_dedup.mp hr', h2.symm⟩
      · intro ⟨hr, hc⟩
        rw [hc]
        exact List.mem_map.mpr ⟨r, List.mem_dedup.mpr hr, rfl⟩
    · have hcomp : (Prod.fst ∘ fun r : FragRow => (r, (rows.count r : Int))) = id := rfl
      have : (groupCounts rows).map Prod.fst = rows.dedup := by
        rw [groupCounts, List.map_map, hcomp, List.map_id]
      rw [this]
      exact List.nodup_dedup rows

/-- Witness for `read_fragments_count_spec`: zero and negative counts pass on
the numeric path, and three rows with two equal keys collapse on the string
path. -/
theorem read_fragments_count_spec_witness :
    ((∀ v ∈ ([0, -7] : List Int), -2147483648 ≤ v ∧ v ≤ 2147483647) ∧
      read_fragments_to_polars_df
          [⟨"chr1", 0, 10, "BC1"⟩, ⟨"chr1", 5, 9, "BC2"⟩] (.ints [0, -7]) =
        .ok [(⟨"chr1", 0, 10, "BC1"⟩, 0), (⟨"chr1", 5, 9, "BC2"⟩, -7)]) ∧
    (([⟨"chr1", 0, 10, "BC1"⟩, ⟨"chr1", 0, 10, "BC1"⟩, ⟨"chr1", 5, 9, "BC2"⟩] :
        List FragRow).length ≤ 2147483647 ∧
      read_fragments_to_polars_df
          [⟨"chr1", 0, 10, "BC1"⟩, ⟨"chr1", 0, 10, "BC1"⟩, ⟨"chr1", 5, 9, "BC2"⟩]
          (.utf8 [".", ".", "."]) =
        .ok (groupCounts
          [⟨"chr1", 0, 10, "BC1"⟩, ⟨"chr1", 0, 10, "BC1"⟩, ⟨"chr1", 5, 9, "BC2"⟩])) :=
  ⟨⟨by decide,
    read_fragments_count_spec.1
      [⟨"chr1", 0, 10, "BC1"⟩, ⟨"chr1", 5, 9, "BC2"⟩] [0, -7] (by decide)⟩,
   ⟨by decide,
    (read_fragments_count_spec.2
      [⟨"chr1", 0, 10, "BC1"⟩, ⟨"chr1", 0, 10, "BC1"⟩, ⟨"chr1", 5, 9, "BC2"⟩]
      [".", ".", "."] (by decide)).1⟩⟩

/-! ## C7: duplicate chromosomes -/

theorem split_fold_error_stays : ∀ (rows : List (String × Int)) (msg : String),
    rows.foldl split_chromsizes_step (.error msg) = .error msg := by
  intro rows
  induction rows with
  | nil => intro msg; rfl
  | cons r rows ih =>
    intro msg
    simp only [List.foldl_cons]
    rw [show split_chromsizes_step (.error msg) r = .error msg from rfl]
    exact ih msg

theorem split_fold_ok_nodup : ∀ (rows : List (String × Int)) (d : List (String × Int)),
    (d.map Prod.fst).Nodup →
    ∀ out, rows.foldl split_chromsizes_step (.ok d) = .ok out →
    (d.map Prod.fst ++ rows.map Prod.fst).Nodup := by
  intro rows
  induction rows with
  | nil =>
    intro d hd out _
    simpa using hd
  | cons r rows ih =>
    intro d hd out hout
    simp only [List.foldl_cons] at hout
    rw [show split_chromsizes_step (.ok d) r =
      (if d.any (fun p => p.1 == r.1) then
        .error ("Duplicates in chromosome sizes file, for chromosome " ++ r.1)
      else .ok (d ++ [r])) from rfl] at hout
    by_cases hany : d.any (fun p => p.1 == r.1)
    · rw [if_pos hany, split_fold_error_stays] at hout
      exact absurd hout (by simp)
    · rw [if_neg hany] at hout
      have hnotmem : r.1 ∉ d.map Prod.fst := by
        intro hmem
        obtain ⟨p, hp, hp1⟩ := List.mem_map.mp hmem
        exact hany (List.any_eq_true.mpr ⟨p, hp, by simp [hp1]⟩)
      have hd' : ((d ++ [r]).map Prod.fst).Nodup := by
        rw [List.map_append]
        simp only [List.map_cons, List.map_nil]
        rw [List.nodup_append]
        exact ⟨hd, List.nodup_singleton _, by simpa using hnotmem⟩
      have := ih (d ++ [r]) hd' out hout
      rw [List.map_append] at this
      simp only [List.map_cons, List.map_nil, List.map_cons] at this ⊢
      rw [List.append_assoc] at this
      simpa using this

/-- C7 (counterexample).  On the bigwig path, a chromosome-sizes file in which
`chr1` appears twice does NOT make loading fail: `get_chromosome_sizes`
silently keeps the last size. -/
theorem get_chromosome_sizes_duplicate_not_error :
    get_chromosome_sizes ["chr1\t10", "chr1\t20"] = .ok [("chr1", 20)] := by rfl

/-- C7 (amended).  Duplicate chromosomes in the sizes input are an error on the
split path (`command_split_fragments_by_cell_type` raises `ValueError`), but
NOT on the bigwig path: `get_chromosome_sizes` silently overwrites, keeping the
last size seen for the duplicated chromosome. -/
theorem chromosome_sizes_duplicate_spec :
    (∀ rows : List (String × Int), ¬ (rows.map Prod.fst).Nodup →
      ∃ msg, split_read_chromsizes rows = .error msg) ∧
    get_chromosome_sizes ["chr1\t10", "chr1\t20"] = .ok [("chr1", 20)] ∧
    get_chromosome_sizes ["chr1\t10", "# comment", "", "chr2\t7", "chr1\t20"] =
      .ok [("chr1", 20), ("chr2", 7)] := by
  refine ⟨?_, by rfl, by rfl⟩
  intro rows hnd
  cases hres : split_read_chromsizes rows with
  | ok out =>
    have := split_fold_ok_nodup rows [] (by simp) out hres
    simp at this
    exact absurd this hnd
  | error msg => exact ⟨msg, rfl⟩

/-- Witness for `chromosome_sizes_duplicate_spec` at the duplicated input
`[("chr1", 10), ("chr1", 20)]`. -/
theorem chromosome_sizes_duplicate_spec_witness :
    (¬ (([("chr1", (10 : Int)), ("chr1", 20)] : List (String × Int)).map Prod.fst).Nodup) ∧
    (∃ msg, split_read_chromsizes [("chr1", 10), ("chr1", 20)] = .error msg) :=
  ⟨by decide, chromosome_sizes_duplicate_spec.1 [("chr1", 10), ("chr1", 20)] (by decide)⟩

/-! ## C8: writer dispatch -/

/-- C8.  `fragments_to_bw` dispatches on the lower-cased writer name: any name
other than the two recognized implementations fails with `ValueError` before
any coverage is computed or any output opened (the error branch carries no
writer and no output), while each recognized name invokes the corresponding
writer implementation. -/
theorem fragments_to_bw_writer_dispatch :
    (∀ (fragments : List FragRow) (chrom_sizes : List (String × Nat))
        (normalize : Bool) (scaling_factor : ℚ) (cut_sites : Bool) (w : String),
      pyLower w ≠ "pybigwig" → pyLower w ≠ "pybigtools" →
      fragments_to_bw fragments chrom_sizes normalize scaling_factor cut_sites w =
        .error ("Unsupported bigwig writer, value \"" ++ w ++
          "\" (allowed: [\"pybigwig\", \"pybigtools\"]).")) ∧
    (∀ (fragments : List FragRow) (chrom_sizes : List (String × Nat))
        (normalize : Bool) (scaling_factor : ℚ) (cut_sites : Bool) (w : String),
      pyLower w = "pybigwig" →
      fragments_to_bw fragments chrom_sizes normalize scaling_factor cut_sites w =
        .ok (.pybigwig,
          fragments_to_coverage fragments chrom_sizes normalize scaling_factor cut_sites)) ∧
    (∀ (fragments : List FragRow) (chrom_sizes : List (String × Nat))
        (normalize : Bool) (scaling_factor : ℚ) (cut_sites : Bool) (w : String),
      pyLower w = "pybigtools" →
      fragments_to_bw fragments chrom_sizes normalize scaling_factor cut_sites w =
        .ok (.pybigtools,
          fragments_to_coverage fragments chrom_sizes normalize scaling_factor cut_sites)) := by
  refine ⟨?_, ?_, ?_⟩
  · intro fragments chrom_sizes normalize scaling_factor cut_sites w h1 h2
    simp [fragments_to_bw, h1, h2]
  · intro fragments chrom_sizes normalize scaling_factor cut_sites w h1
    simp [fragments_to_bw, h1]
  · intro fragments chrom_sizes normalize scaling_factor cut_sites w h2
    by_cases h1 : pyLower w = "pybigwig"
    · rw [h1] at h2
      exact absurd h2 (by decide)
    · simp [fragments_to_bw, h1, h2]

/-- Witness for `fragments_to_bw_writer_dispatch`: the unknown name `"bogus"`
errors; `"PyBigWig"` and `"pybigtools"` dispatch to their implementations. -/
theorem fragments_to_bw_writer_dispatch_witness :
    (pyLower "bogus" ≠ "pybigwig" ∧ pyLower "bogus" ≠ "pybigtools" ∧
      fragments_to_bw [] [] false 1 false "bogus" =
        .error ("Unsupported bigwig writer, value \"" ++ "bogus" ++
          "\" (allowed: [\"pybigwig\", \"pybigtools\"]).")) ∧
    (pyLower "PyBigWig" = "pybigwig" ∧
      fragments_to_bw [] [] false 1 false "PyBigWig" =
        .ok (.pybigwig, fragments_to_coverage [] [] false 1 false)) ∧
    (pyLower "pybigtools" = "pybigtools" ∧
      fragments_to_bw [] [] false 1 false "pybigtools" =
        .ok (.pybigtools, fragments_to_coverage [] [] false 1 false)) :=
  ⟨⟨by decide, by decide,
    fragments_to_bw_writer_dispatch.1 [] [] false 1 false "bogus" (by decide) (by decide)⟩,
   ⟨by decide,
    fragments_to_bw_writer_dispatch.2.1 [] [] false 1 false "PyBigWig" (by decide)⟩,
   ⟨by decide,
    fragments_to_bw_writer_dispatch.2.2 [] [] false 1 false "pybigtools" (by decide)⟩⟩

/-! ## C10: the discarded post-merge warning -/

/-- C10.  The post-merge existence check of
`split_fragment_files_by_cell_type` returns normally for EVERY filesystem
state and every cell-type list — a missing merged output file is never raised
and never returned; the `Warning` objects the loop builds for missing files
(shown non-empty at a concrete missing-file input) are constructed and
immediately discarded. -/
theorem post_merge_check_never_reports :
    (∀ (file_exists : String → Bool) (output_folder : String) (cell_types : List String),
      check_merged_output_files file_exists output_folder cell_types = .ok ()) ∧
    (check_merged_output_files (fun _ => false) "out" ["T1"] = .ok () ∧
      merged_output_warnings (fun _ => false) "out" ["T1"] =
        [PyWarning.mk "Fragment file out/T1.fragments.tsv.gz does not exist."]) := by
  have hfold : ∀ (cell_types : List String) (file_exists : String → Bool)
      (output_folder : String),
      cell_types.foldl
        (fun acc cell_type =>
          acc.bind (fun _ =>
            if file_exists (merged_output_path output_folder cell_type) then .ok ()
            else
              let _w := PyWarning.mk ("Fragment file " ++
                merged_output_path output_folder cell_type ++ " does not exist.")
              .ok ()))
        (Except.ok ()) = (.ok () : Except String Unit) := by
    intro cell_types
    induction cell_types with
    | nil => intro file_exists output_folder; rfl
    | cons ct cts ih =>
      intro file_exists output_folder
      simp only [List.foldl_cons]
      by_cases h : file_exists (merged_output_path output_folder ct)
      · rw [show (Except.ok () : Except String Unit).bind (fun _ =>
          if file_exists (merged_output_path output_folder ct) then (.ok () : Except String Unit)
          else
            let _w := PyWarning.mk ("Fragment file " ++
              merged_output_path output_folder ct ++ " does not exist.")
            .ok ()) = .ok () from by simp [Except.bind, h]]
        exact ih file_exists output_folder
      · rw [show (Except.ok () : Except String Unit).bind (fun _ =>
          if file_exists (merged_output_path output_folder ct) then (.ok () : Except String Unit)
          else
            let _w := PyWarning.mk ("Fragment file " ++
              merged_output_path output_folder ct ++ " does not exist.")
            .ok ()) = .ok () from by simp [Except.bind, h]]
        exact ih file_exists output_folder
  refine ⟨?_, ?_, ?_⟩
  · intro file_exists output_folder cell_types
    exact hfold cell_types file_exists output_folder
  · rfl
  · rfl

/-! ## C2: the coverage stream yields the maximal non-zero runs -/

/-- The depth list computed per chromosome equals the per-base fragment counts
of the claim, for non-negative coordinates and fewer than `2 ^ 32`
fragments. -/
theorem chrom_depth_eq_counts (size : Nat) (cf : List FragRow)
    (hnn : ∀ f ∈ cf, 0 ≤ f.Start ∧ 0 ≤ f.End) (hlen : cf.length < UINT32_MOD) :
    calculate_depth size (cf.map (fun f => f.Start)) (cf.map (fun f => f.End)) =
      (List.range size).map (fun (b : Nat) =>
        cf.countP (fun f => decide (f.Start ≤ (b : Int) ∧ (b : Int) < f.End))) := by
  rw [calculate_depth_eq_map _ _ _ (by rw [List.length_map]; exact hlen)]
  apply List.map_congr_left
  intro b hb
  rw [List.zip_map', List.countP_map]
  apply List.countP_congr
  intro f hf
  simp only [Function.comp_apply, decide_eq_true_eq]
  exact sliceIdx_cond_iff size f.Start f.End b (List.mem_range.mp hb)
    (hnn f hf).1 (hnn f hf).2

/-- C2.  With `cut_sites = false` and no normalization or scaling, the coverage
stream yields, per chromosome of `chrom_sizes` (in order, skipping chromosomes
with no non-zero run), exactly the maximal runs of constant non-zero depth,
where the depth of base `b` is the number of fragments `[s, e)` on that
chromosome with `s ≤ b < e`. -/
theorem fragments_to_coverage_yields_maximal_nonzero_runs
    (fragments : List FragRow) (chrom_sizes : List (String × Nat))
    (hpos : ∀ f ∈ fragments, 0 ≤ f.Start ∧ 0 ≤ f.End)
    (hcnt : fragments.length < UINT32_MOD) :
    fragments_to_coverage fragments chrom_sizes false 1 false =
      chrom_sizes.filterMap (fun cz =>
        let runs := (maximalRuns 0 ((List.range cz.2).map (fun (b : Nat) =>
            (fragments.filter (fun f => f.Chromosome == cz.1)).countP
              (fun f => decide (f.Start ≤ (b : Int) ∧ (b : Int) < f.End))))).filter
          (fun t => t.2.2 ≠ 0)
        if runs = [] then none
        else some (cz.1, runs.map (fun t => (t.1, t.2.1, (t.2.2 : ℚ))))) := by
  simp only [fragments_to_coverage]
  apply List.filterMap_congr
  intro cz hcz
  have hnn : ∀ f ∈ fragments.filter (fun f => f.Chromosome == cz.1),
      0 ≤ f.Start ∧ 0 ≤ f.End := fun f hf => hpos f (List.mem_of_mem_filter hf)
  have hlen : (fragments.filter (fun f => f.Chromosome == cz.1)).length < UINT32_MOD :=
    lt_of_le_of_lt (List.length_filter_le _ _) hcnt
  simp only [Bool.false_eq_true, if_false, ne_eq, not_true_eq_false]
  rw [chrom_depth_eq_counts cz.2 _ hnn hlen, coverage_triples_eq_maximalRuns]

/-- Witness for `fragments_to_coverage_yields_maximal_nonzero_runs` at the
overlap example: chr1 of size 10 with fragments `(0, 4)` and `(2, 6)` yields
runs `(0,2,1)`, `(2,4,2)`, `(4,6,1)`. -/
theorem fragments_to_coverage_yields_maximal_nonzero_runs_witness :
    ((∀ f ∈ [FragRow.mk "chr1" 0 4 "BC1", FragRow.mk "chr1" 2 6 "BC2"],
        0 ≤ f.Start ∧ 0 ≤ f.End) ∧
      ([FragRow.mk "chr1" 0 4 "BC1", FragRow.mk "chr1" 2 6 "BC2"] :
        List FragRow).length < UINT32_MOD) ∧
    fragments_to_coverage [FragRow.mk "chr1" 0 4 "BC1", FragRow.mk "chr1" 2 6 "BC2"]
        [("chr1", 10)] false 1 false =
      ([("chr1", 10)] : List (String × Nat)).filterMap (fun cz =>
        let runs := (maximalRuns 0 ((List.range cz.2).map (fun (b : Nat) =>
            ([FragRow.mk "chr1" 0 4 "BC1", FragRow.mk "chr1" 2 6 "BC2"].filter
                (fun f => f.Chromosome == cz.1)).countP
              (fun f => decide (f.Start ≤ (b : Int) ∧ (b : Int) < f.End))))).filter
          (fun t => t.2.2 ≠ 0)
        if runs = [] then none
        else some (cz.1, runs.map (fun t => (t.1, t.2.1, (t.2.2 : ℚ))))) ∧
    fragments_to_coverage [FragRow.mk "chr1" 0 4 "BC1", FragRow.mk "chr1" 2 6 "BC2"]
        [("chr1", 10)] false 1 false =
      [("chr1", [(0, 2, (1 : ℚ)), (2, 4, 2), (4, 6, 1)])] :=
  ⟨⟨by decide, by decide⟩,
   fragments_to_coverage_yields_maximal_nonzero_runs
     [FragRow.mk "chr1" 0 4 "BC1", FragRow.mk "chr1" 2 6 "BC2"] [("chr1", 10)]
     (by decide) (by decide),
   by decide⟩

/-! ## C3: cut sites -/

theorem countP_flatMap_two : ∀ (l : List FragRow) (u v : FragRow → FragRow)
    (q : FragRow → Bool),
    (l.flatMap (fun f => [u f, v f])).countP q =
      l.countP (fun f => q (u f)) + l.countP (fun f => q (v f)) := by
  intro l
  induction l with
  | nil => intro u v q; rfl
  | cons f l ih =>
    intro u v q
    simp only [List.flatMap_cons, List.countP_append, List.countP_cons, ih,
      List.countP_nil]
    by_cases hu : q (u f) <;> by_cases hv : q (v f) <;> simp [hu, hv] <;> omega

/-- Filtering the cut-site doubling by chromosome commutes with doubling the
filtered fragments (each generated 1-bp fragment keeps its chromosome). -/
theorem filter_cutSiteFragments : ∀ (fragments : List FragRow) (c : String),
    (cutSiteFragments fragments).filter (fun f => f.Chromosome == c) =
      cutSiteFragments (fragments.filter (fun f => f.Chromosome == c)) := by
  intro fragments
  induction fragments with
  | nil => intro c; rfl
  | cons f fs ih =>
    intro c
    simp only [cutSiteFragments, List.flatMap_cons, List.filter_append, List.filter_cons]
    by_cases h : f.Chromosome == c
    · simp only [h, if_pos]
      rw [show (fs.flatMap (fun f => [⟨f.Chromosome, f.Start, f.Start + 1, f.Name⟩,
          ⟨f.Chromosome, f.End - 1, f.End, f.Name⟩]) : List FragRow).filter
            (fun f => f.Chromosome == c) =
          cutSiteFragments (fs.filter (fun f => f.Chromosome == c)) from ih c]
      simp [cutSiteFragments, List.flatMap_cons, h]
    · simp only [h]
      rw [show (fs.flatMap (fun f => [⟨f.Chromosome, f.Start, f.Start + 1, f.Name⟩,
          ⟨f.Chromosome, f.End - 1, f.End, f.Name⟩]) : List FragRow).filter
            (fun f => f.Chromosome == c) =
          cutSiteFragments (fs.filter (fun f => f.Chromosome == c)) from ih c]
      simp [cutSiteFragments, h]

/-- The hstacked cut-site arrays and the doubled 1-bp fragment list accumulate
the same depth array. -/
theorem cutsite_depth_eq (size : Nat) (cf : List FragRow) :
    calculate_depth size
      (cf.map (fun f => f.Start) ++ (cf.map (fun f => f.End)).map (fun e => e - 1))
      ((cf.map (fun f => f.Start)).map (fun s => s + 1) ++ cf.map (fun f => f.End)) =
    calculate_depth size ((cutSiteFragments cf).map (fun f => f.Start))
      ((cutSiteFragments cf).map (fun f => f.End)) := by
  apply List.ext_getElem
  · rw [calculate_depth_length, calculate_depth_length]
  · intro b h1 h2
    rw [calculate_depth_length] at h1
    rw [← List.getD_eq_getElem _ 0, ← List.getD_eq_getElem _ 0,
      calculate_depth_getD _ _ _ b h1, calculate_depth_getD _ _ _ b h1]
    congr 1
    rw [List.zip_append (by simp), List.countP_append]
    rw [List.map_map, List.map_map, List.zip_map', List.zip_map', List.zip_map',
      List.countP_map, List.countP_map, List.countP_map]
    rw [show (cutSiteFragments cf) = cf.flatMap (fun f =>
      [⟨f.Chromosome, f.Start, f.Start + 1, f.Name⟩,
       ⟨f.Chromosome, f.End - 1, f.End, f.Name⟩]) from rfl]
    rw [countP_flatMap_two]
    rfl

/-- C3.  With `cut_sites = true` each fragment `[s, e)` contributes exactly the
two 1-bp intervals `[s, s + 1)` and `[e - 1, e)` instead of the whole
interval: the coverage stream equals the `cut_sites = false` stream over the
doubled 1-bp fragment list.  In particular, fragment `(chr1, 2, 5)` on chr1 of
size 10 yields runs `(2, 3, 1)` and `(4, 5, 1)`. -/
theorem cut_sites_coverage_eq_two_cut_site_intervals :
    (∀ (fragments : List FragRow) (chrom_sizes : List (String × Nat))
        (scaling_factor : ℚ),
      fragments_to_coverage fragments chrom_sizes false scaling_factor true =
        fragments_to_coverage (cutSiteFragments fragments) chrom_sizes false
          scaling_factor false) ∧
    fragments_to_coverage [FragRow.mk "chr1" 2 5 "BC1"] [("chr1", 10)] false 1 true =
      [("chr1", [(2, 3, (1 : ℚ)), (4, 5, 1)])] := by
  constructor
  · intro fragments chrom_sizes scaling_factor
    simp only [fragments_to_coverage]
    apply List.filterMap_congr
    intro cz hcz
    simp only [Bool.false_eq_true, if_false, if_true]
    rw [filter_cutSiteFragments fragments cz.1, ← cutsite_depth_eq]
  · decide

/-! ## C4: normalization and scaling -/

/-- A depth array whose every position reads zero produces no runs. -/
theorem coverage_triples_of_all_zero (X : List Nat) (h : ∀ i, X.getD i 0 = 0) :
    coverage_triples X = [] := by
  rw [coverage_triples, List.filterMap_eq_nil_iff]
  intro p hp
  have hp1 : p.1 ∈ (collapse_idx X).zip (collapse_values X) := (List.of_mem_zip hp).1
  have hv : p.1.2 ∈ collapse_values X := (List.of_mem_zip hp1).2
  obtain ⟨i, _, hi⟩ := List.mem_map.mp hv
  have : p.1.2 = 0 := by rw [← hi, h i]
  simp [this]

/-- With no fragment on any sized chromosome, every depth array is zero and no
chromosome is yielded. -/
theorem fragments_to_coverage_of_no_kept (fragments : List FragRow)
    (chrom_sizes : List (String × Nat)) (normalize : Bool) (scaling_factor : ℚ)
    (hN : n_kept_fragments fragments chrom_sizes = 0) :
    fragments_to_coverage fragments chrom_sizes normalize scaling_factor false = [] := by
  simp only [fragments_to_coverage]
  rw [List.filterMap_eq_nil_iff]
  intro cz hcz
  have hnotkept : ∀ f ∈ fragments,
      ¬ ((chrom_sizes.find? (fun p => p.1 == f.Chromosome)).isSome = true) := by
    have := List.length_eq_zero.mp hN
    exact List.filter_eq_nil_iff.mp this
  have hcf : fragments.filter (fun f => f.Chromosome == cz.1) = [] := by
    rw [List.filter_eq_nil_iff]
    intro f hf hchrom
    apply hnotkept f hf
    rw [List.find?_isSome]
    refine ⟨cz, hcz, ?_⟩
    have : f.Chromosome = cz.1 := by simpa using hchrom
    simp [this]
  rw [hcf]
  have hdepth : calculate_depth cz.2 (([] : List FragRow).map (fun f => f.Start))
      (([] : List FragRow).map (fun f => f.End)) = List.replicate cz.2 0 := rfl
  simp only [List.map_nil, Bool.false_eq_true, if_false]
  rw [show calculate_depth cz.2 ([] : List Int) ([] : List Int) =
    List.replicate cz.2 0 from rfl]
  rw [coverage_triples_of_all_zero _ (fun i => getD_replicate_zero cz.2 i)]
  simp

/-- C4.  With `normalize = true`, every emitted run value is the raw depth
divided by `N / 1_000_000` and multiplied by `scaling_factor`; with `N = 0` no
runs are emitted at all; with `normalize = false` the values are the raw
depths multiplied by `scaling_factor` (a multiplication the code performs only
when `scaling_factor ≠ 1.0`, leaving the raw `f32` depths untouched
otherwise — in exact arithmetic both give `value × scaling_factor`).  In
particular one fragment of length 3 with `N = 1`, `normalize = true`,
`scaling = 2` yields run value `2_000_000`. -/
theorem fragments_to_coverage_normalization_spec :
    (∀ (fragments : List FragRow) (chrom_sizes : List (String × Nat))
        (scaling_factor : ℚ),
      fragments_to_coverage fragments chrom_sizes true scaling_factor false =
        (fragments_to_coverage fragments chrom_sizes false 1 false).map
          (fun ce => (ce.1, ce.2.map (fun t => (t.1, t.2.1,
            t.2.2 / ((n_kept_fragments fragments chrom_sizes : ℚ) / 1000000) *
              scaling_factor))))) ∧
    (∀ (fragments : List FragRow) (chrom_sizes : List (String × Nat))
        (scaling_factor : ℚ),
      n_kept_fragments fragments chrom_sizes = 0 →
      fragments_to_coverage fragments chrom_sizes true scaling_factor false = []) ∧
    (∀ (fragments : List FragRow) (chrom_sizes : List (String × Nat))
        (scaling_factor : ℚ),
      fragments_to_coverage fragments chrom_sizes false scaling_factor false =
        (fragments_to_coverage fragments chrom_sizes false 1 false).map
          (fun ce => (ce.1, ce.2.map (fun t =>
            (t.1, t.2.1, t.2.2 * scaling_factor))))) ∧
    fragments_to_coverage [FragRow.mk "chr1" 2 5 "BC1"] [("chr1", 10)] true 2 false =
      [("chr1", [(2, 5, (2000000 : ℚ))])] := by
  have hnorm : ∀ (fragments : List FragRow) (chrom_sizes : List (String × Nat))
      (scaling_factor : ℚ),
      fragments_to_coverage fragments chrom_sizes true scaling_factor false =
        (fragments_to_coverage fragments chrom_sizes false 1 false).map
          (fun ce => (ce.1, ce.2.map (fun t => (t.1, t.2.1,
            t.2.2 / ((n_kept_fragments fragments chrom_sizes : ℚ) / 1000000) *
              scaling_factor)))) := by
    intro fragments chrom_sizes scaling_factor
    simp only [fragments_to_coverage, List.map_filterMap]
    apply List.filterMap_congr
    intro cz hcz
    simp only [Bool.false_eq_true, if_false, if_true, ne_eq, not_true_eq_false,
      one_ne_zero]
    by_cases hT : coverage_triples (calculate_depth cz.2
        ((fragments.filter (fun f => f.Chromosome == cz.1)).map (fun f => f.Start))
        ((fragments.filter (fun f => f.Chromosome == cz.1)).map (fun f => f.End))) = []
    · simp [hT]
    · simp [hT, List.map_map, Function.comp]
  refine ⟨hnorm, ?_, ?_, ?_⟩
  · intro fragments chrom_sizes scaling_factor hN
    exact fragments_to_coverage_of_no_kept fragments chrom_sizes true scaling_factor hN
  · intro fragments chrom_sizes scaling_factor
    simp only [fragments_to_coverage, List.map_filterMap]
    apply List.filterMap_congr
    intro cz hcz
    simp only [Bool.false_eq_true, if_false, ne_eq, not_true_eq_false, one_ne_zero]
    by_cases hT : coverage_triples (calculate_depth cz.2
        ((fragments.filter (fun f => f.Chromosome == cz.1)).map (fun f => f.Start))
        ((fragments.filter (fun f => f.Chromosome == cz.1)).map (fun f => f.End))) = []
    · simp [hT]
    · by_cases hsf : scaling_factor = 1
      · subst hsf
        simp [hT, List.map_map, Function.comp]
      · simp [hT, hsf, List.map_map, Function.comp]
  · rw [hnorm [FragRow.mk "chr1" 2 5 "BC1"] [("chr1", 10)] 2]
    rw [show fragments_to_coverage [FragRow.mk "chr1" 2 5 "BC1"] [("chr1", 10)]
        false 1 false = [("chr1", [(2, 5, (1 : ℚ))])] from by decide]
    rw [show n_kept_fragments [FragRow.mk "chr1" 2 5 "BC1"] [("chr1", 10)] = 1 from
      by decide]
    simp only [List.map_cons, List.map_nil]
    norm_num

/-- Witness for `fragments_to_coverage_normalization_spec`: a fragment on a
chromosome absent from the sizes gives `N = 0` and an empty stream. -/
theorem fragments_to_coverage_normalization_spec_witness :
    n_kept_fragments [FragRow.mk "chr2" 0 3 "BC1"] [("chr1", 10)] = 0 ∧
    fragments_to_coverage [FragRow.mk "chr2" 0 3 "BC1"] [("chr1", 10)] true 2 false = [] :=
  ⟨by decide,
   fragments_to_coverage_normalization_spec.2.1 [FragRow.mk "chr2" 0 3 "BC1"]
     [("chr1", 10)] 2 (by decide)⟩
